import Mathlib

/-!
Verification of the ulid-rs core: Crockford Base32 codec (src/base32.rs),
the Ulid value type (src/lib.rs, src/time.rs) and the monotonic generator
(src/generator.rs).  Machine integers (u8, u16, u64, u128) are embedded as
natural numbers with explicit reductions modulo the corresponding power of
two wherever the Rust code can truncate; strings are embedded as the byte
lists the Rust code actually iterates over (str::as_bytes); SystemTime is
embedded as a signed count of milliseconds since the Unix epoch, so that
`duration_since(UNIX_EPOCH).unwrap_or(ZERO).as_millis()` becomes
`Int.toNat`.
-/

/-- Length of a string-encoded Ulid (base32.rs, ULID_LEN). -/
def ULID_LEN : Nat := 26

/-- The Crockford alphabet as the byte string b"0123456789ABCDEFGHJKMNPQRSTVWXYZ" (base32.rs, ALPHABET). -/
def ALPHABET : List Nat :=
  [48, 49, 50, 51, 52, 53, 54, 55, 56, 57,
   65, 66, 67, 68, 69, 70, 71, 72, 74, 75,
   77, 78, 80, 81, 82, 83, 84, 86, 87, 88, 89, 90]

/-- Sentinel marking a byte that is not in the alphabet (base32.rs, NO_VALUE). -/
def NO_VALUE : Nat := 255

/-- The 256-entry byte-to-value table (base32.rs, LOOKUP), written out exactly as in the source. -/
def LOOKUP : List Nat :=
  [255, 255, 255, 255, 255, 255, 255, 255, 255, 255, 255, 255, 255, 255, 255, 255, 255, 255, 255,
   255, 255, 255, 255, 255, 255, 255, 255, 255, 255, 255, 255, 255, 255, 255, 255, 255, 255, 255,
   255, 255, 255, 255, 255, 255, 255, 255, 255, 255, 0, 1, 2, 3, 4, 5, 6, 7, 8, 9, 255, 255, 255,
   255, 255, 255, 255, 10, 11, 12, 13, 14, 15, 16, 17, 255, 18, 19, 255, 20, 21, 255, 22, 23, 24,
   25, 26, 255, 27, 28, 29, 30, 31, 255, 255, 255, 255, 255, 255, 10, 11, 12, 13, 14, 15, 16, 17,
   255, 18, 19, 255, 20, 21, 255, 22, 23, 24, 25, 26, 255, 27, 28, 29, 30, 31, 255, 255, 255, 255,
   255, 255, 255, 255, 255, 255, 255, 255, 255, 255, 255, 255, 255, 255, 255, 255, 255, 255, 255,
   255, 255, 255, 255, 255, 255, 255, 255, 255, 255, 255, 255, 255, 255, 255, 255, 255, 255, 255,
   255, 255, 255, 255, 255, 255, 255, 255, 255, 255, 255, 255, 255, 255, 255, 255, 255, 255, 255,
   255, 255, 255, 255, 255, 255, 255, 255, 255, 255, 255, 255, 255, 255, 255, 255, 255, 255, 255,
   255, 255, 255, 255, 255, 255, 255, 255, 255, 255, 255, 255, 255, 255, 255, 255, 255, 255, 255,
   255, 255, 255, 255, 255, 255, 255, 255, 255, 255, 255, 255, 255, 255, 255, 255, 255, 255, 255,
   255, 255, 255, 255, 255, 255, 255, 255, 255, 255, 255, 255, 255, 255, 255]

/-- Byte-to-value lookup: LOOKUP[b as usize] for a byte b. -/
def lookupByte (b : Nat) : Nat := LOOKUP.getD b NO_VALUE

/-- Error type of encode_to (base32.rs, EncodeError). -/
inductive EncodeError where
  | BufferTooSmall
deriving DecidableEq

/-- Error type of decode (base32.rs, DecodeError). -/
inductive DecodeError where
  | InvalidLength
  | InvalidChar
deriving DecidableEq

/-- The loop body of encode_to: iteration i writes ALPHABET[(value >> 5*i) & 0x1f] at
buffer index ULID_LEN - 1 - i, so the bytes produced here are the final buffer read
right-to-left; `value & 0x1f` is `value % 32` and `value >>= 5` is `value / 32`. -/
def encodeLoop : Nat → Nat → List Nat
  | 0, _ => []
  | n + 1, value => ALPHABET.getD (value % 32) 0 :: encodeLoop n (value / 32)

/-- The 26 bytes encode_to writes into buffer[0..26] (buffer order, most significant first). -/
def encodeBytes (value : Nat) : List Nat := (encodeLoop ULID_LEN value).reverse

/-- base32.rs encode_to: checks the buffer length, then overwrites buffer[0..26] with the
encoding of `value` and returns ULID_LEN.  The returned pair is (returned length, buffer
contents after the call). -/
def encode_to (value : Nat) (buffer : List Nat) : Except EncodeError (Nat × List Nat) :=
  if buffer.length < ULID_LEN then .error .BufferTooSmall
  else .ok (ULID_LEN, encodeBytes value ++ buffer.drop ULID_LEN)

/-- base32.rs encode: encodes into a fresh [0u8; ULID_LEN] buffer and returns its bytes. -/
def encode (value : Nat) : List Nat := encodeBytes value

/-- The loop of decode: for each byte, look it up; on NO_VALUE fail with InvalidChar,
otherwise `value = (value << 5) | val` on u128, i.e. `(value * 32) % 2^128 ||| val`. -/
def decodeLoop : List Nat → Nat → Except DecodeError Nat
  | [], value => .ok value
  | b :: rest, value =>
    let val := lookupByte b
    if val ≠ NO_VALUE then decodeLoop rest ((value * 32) % 2 ^ 128 ||| val)
    else .error .InvalidChar

/-- base32.rs decode, on the byte list of the input string: rejects any length other
than ULID_LEN first, then folds the per-byte loop over the bytes. -/
def decode (bytes : List Nat) : Except DecodeError Nat :=
  if bytes.length ≠ ULID_LEN then .error .InvalidLength
  else decodeLoop bytes 0

/-- ASCII uppercasing of one byte.  Modelled from the spec: the spec's round-trip law
compares against `uppercase(s)`; on the ASCII strings decode accepts this is per-byte
uppercasing of the lowercase letters a-z. -/
def toUpperByte (b : Nat) : Nat := if 97 ≤ b ∧ b ≤ 122 then b - 32 else b

/-- lib.rs: `pub struct Ulid(pub u128)`, the u128 embedded as a natural below 2^128. -/
structure Ulid where
  val : Nat
deriving DecidableEq

/-- lib.rs, Ulid::TIME_BITS. -/
def Ulid.TIME_BITS : Nat := 48

/-- lib.rs, Ulid::RAND_BITS. -/
def Ulid.RAND_BITS : Nat := 80

/-- lib.rs, Ulid::nil. -/
def Ulid.nil : Ulid := ⟨0⟩

/-- lib.rs, Ulid::is_nil. -/
def Ulid.is_nil (u : Ulid) : Bool := u.val = 0

/-- lib.rs, Ulid::timestamp_ms: `(self.0 >> Self::RAND_BITS) as u64`. -/
def Ulid.timestamp_ms (u : Ulid) : Nat := (u.val / 2 ^ Ulid.RAND_BITS) % 2 ^ 64

/-- lib.rs, Ulid::increment: None when the low RAND_BITS bits are all ones
(`self.0 & MAX_RANDOM == MAX_RANDOM` with `MAX_RANDOM = bitmask!(RAND_BITS)`),
otherwise `Some(Ulid(self.0 + 1))`. -/
def Ulid.increment (u : Ulid) : Option Ulid :=
  if u.val % 2 ^ Ulid.RAND_BITS = 2 ^ Ulid.RAND_BITS - 1 then none
  else some ⟨u.val + 1⟩

/-- lib.rs, `impl From<(u64, u64)> for Ulid`: `u128::from(msb) << 64 | u128::from(lsb)`;
the `% 2^64` reductions embed the u64 argument types. -/
def Ulid.fromPair (msb lsb : Nat) : Ulid :=
  ⟨(msb % 2 ^ 64) * 2 ^ 64 ||| lsb % 2 ^ 64⟩

/-- time.rs, Ulid::from_datetime_with_source.  `dtMs` is the SystemTime argument as
milliseconds since the Unix epoch (negative = before the epoch), so that
`duration_since(UNIX_EPOCH).unwrap_or(ZERO).as_millis()` is `dtMs.toNat`; `r16` and
`r64` are the two draws `source.gen::<u16>()` and `source.gen::<u64>()`, the `%`
reductions embedding their types.  `timestamp & bitmask!(TIME_BITS)` is
`% 2^48`, the `as u64` cast is `% 2^64`, and `timebits << 16 | r16` on u64 is
`(timebits * 2^16) % 2^64 ||| r16`. -/
def Ulid.from_datetime_with_source (dtMs : Int) (r16 r64 : Nat) : Ulid :=
  let timestamp : Nat := dtMs.toNat
  let timebits : Nat := (timestamp % 2 ^ Ulid.TIME_BITS) % 2 ^ 64
  let msb : Nat := (timebits * 2 ^ 16) % 2 ^ 64 ||| r16 % 2 ^ 16
  let lsb : Nat := r64 % 2 ^ 64
  Ulid.fromPair msb lsb

/-- generator.rs, MonotonicError. -/
inductive MonotonicError where
  | Overflow
deriving DecidableEq

/-- generator.rs, `pub struct Generator { previous: Ulid }`. -/
structure Generator where
  previous : Ulid
deriving DecidableEq

/-- generator.rs, Generator::new. -/
def Generator.new : Generator := ⟨Ulid.nil⟩

/-- generator.rs, Generator::generate_from_datetime_with_source.  Returns the call's
result together with the generator state after the call (`self.previous` is only
written on the Ok paths).  The guard `datetime.duration_since(UNIX_EPOCH)
.unwrap_or(ZERO).as_millis() <= u128::from(last_ms)` is `dtMs.toNat ≤ last_ms`. -/
def Generator.generate_from_datetime_with_source (g : Generator) (dtMs : Int)
    (r16 r64 : Nat) : Except MonotonicError Ulid × Generator :=
  let last_ms := g.previous.timestamp_ms
  if dtMs.toNat ≤ last_ms then
    match g.previous.increment with
    | some next => (.ok next, ⟨next⟩)
    | none => (.error .Overflow, g)
  else
    let next := Ulid.from_datetime_with_source dtMs r16 r64
    (.ok next, ⟨next⟩)

/-- Run a generator over a list of calls, each call supplying the SystemTime argument
(as milliseconds) and the two random draws; collects every call's result. -/
def Generator.runList (g : Generator) :
    List (Int × Nat × Nat) → List (Except MonotonicError Ulid)
  | [] => []
  | (dt, r16, r64) :: rest =>
    let out := g.generate_from_datetime_with_source dt r16 r64
    out.1 :: out.2.runList rest

/-- The successful results of a list of generator call results, in order. -/
def okResults : List (Except MonotonicError Ulid) → List Ulid
  | [] => []
  | .ok u :: rest => u :: okResults rest
  | .error _ :: rest => okResults rest

instance {ε α : Type} [DecidableEq ε] [DecidableEq α] : DecidableEq (Except ε α) := fun x y =>
  match x, y with
  | .ok a, .ok b =>
    if h : a = b then .isTrue (by rw [h]) else .isFalse (fun he => h (Except.ok.inj he))
  | .error a, .error b =>
    if h : a = b then .isTrue (by rw [h]) else .isFalse (fun he => h (Except.error.inj he))
  | .ok _, .error _ => .isFalse (fun he => Except.noConfusion he)
  | .error _, .ok _ => .isFalse (fun he => Except.noConfusion he)

theorem lor_eq_add {k b : Nat} (hb : b < 2 ^ k) (a : Nat) :
    a * 2 ^ k ||| b = a * 2 ^ k + b := by
  rw [Nat.mul_comm]
  exact (Nat.mul_add_lt_is_or hb a).symm

/-- The 5-bit groups extracted by the encode loop, least significant first. -/
def digitsRev : Nat → Nat → List Nat
  | 0, _ => []
  | n + 1, v => v % 32 :: digitsRev n (v / 32)

theorem digitsRev_length (n : Nat) : ∀ v, (digitsRev n v).length = n := by
  induction n with
  | zero => intro v; rfl
  | succ n ih => intro v; simp [digitsRev, ih]

theorem digitsRev_lt (n : Nat) : ∀ v, ∀ d ∈ digitsRev n v, d < 32 := by
  induction n with
  | zero => intro v d h; cases h
  | succ n ih =>
    intro v d h
    rcases List.mem_cons.mp h with h | h
    · exact h ▸ Nat.mod_lt _ (by norm_num)
    · exact ih _ d h

theorem encodeLoop_eq_digits (n : Nat) : ∀ v,
    encodeLoop n v = (digitsRev n v).map (fun d => ALPHABET.getD d 0) := by
  induction n with
  | zero => intro v; rfl
  | succ n ih => intro v; simp [encodeLoop, digitsRev, ih]

theorem digitsRev_snoc (n : Nat) : ∀ v,
    digitsRev (n + 1) v = digitsRev n v ++ [v / 32 ^ n % 32] := by
  induction n with
  | zero => intro v; simp [digitsRev]
  | succ n ih =>
    intro v
    calc digitsRev (n + 2) v = v % 32 :: digitsRev (n + 1) (v / 32) := rfl
    _ = v % 32 :: (digitsRev n (v / 32) ++ [v / 32 / 32 ^ n % 32]) := by rw [ih]
    _ = digitsRev (n + 1) v ++ [v / 32 ^ (n + 1) % 32] := by
        simp [digitsRev, Nat.div_div_eq_div_mul, pow_succ, Nat.mul_comm]

/-- Value of a most-significant-first list of 5-bit groups, folded the way decode folds. -/
def valAcc (a : Nat) (ds : List Nat) : Nat := ds.foldl (fun x d => x * 32 + d) a

theorem valAcc_append (a : Nat) (l : List Nat) (d : Nat) :
    valAcc a (l ++ [d]) = valAcc a l * 32 + d := by
  simp [valAcc, List.foldl_append]

theorem valAcc_cons (a d : Nat) (ds : List Nat) :
    valAcc a (d :: ds) = valAcc (a * 32 + d) ds := rfl

theorem valAcc_split (ds : List Nat) : ∀ x,
    valAcc x ds = x * 32 ^ ds.length + valAcc 0 ds := by
  induction ds with
  | nil => intro x; simp [valAcc]
  | cons d ds ih =>
    intro x
    rw [valAcc_cons, valAcc_cons, Nat.zero_mul, Nat.zero_add, ih (x * 32 + d), ih d]
    simp only [List.length_cons, pow_succ]
    ring

theorem valAcc_lt (ds : List Nat) (hd : ∀ d ∈ ds, d < 32) : ∀ a,
    valAcc a ds < (a + 1) * 32 ^ ds.length := by
  induction ds with
  | nil => intro a; simp [valAcc]
  | cons d ds ih =>
    intro a
    have hd0 : d < 32 := hd d (List.mem_cons_self _ _)
    have hrest := ih (fun x hx => hd x (List.mem_cons_of_mem _ hx)) (a * 32 + d)
    calc valAcc a (d :: ds) = valAcc (a * 32 + d) ds := rfl
    _ < (a * 32 + d + 1) * 32 ^ ds.length := hrest
    _ ≤ ((a + 1) * 32) * 32 ^ ds.length :=
        Nat.mul_le_mul_right _ (by omega)
    _ = (a + 1) * 32 ^ (d :: ds).length := by
        simp only [List.length_cons, pow_succ]; ring

theorem digitsRev_valAcc (ds : List Nat) (hd : ∀ d ∈ ds, d < 32) :
    digitsRev ds.length (valAcc 0 ds) = ds.reverse := by
  induction ds using List.reverseRecOn with
  | nil => rfl
  | append_singleton l d ih =>
    have hdlt : d < 32 := hd d (by simp)
    have hl : ∀ x ∈ l, x < 32 := fun x hx => hd x (by simp [hx])
    rw [valAcc_append]
    have hlen : (l ++ [d]).length = l.length + 1 := by simp
    rw [hlen]
    have h1 : (valAcc 0 l * 32 + d) % 32 = d := by
      rw [Nat.mul_comm, Nat.mul_add_mod, Nat.mod_eq_of_lt hdlt]
    have h2 : (valAcc 0 l * 32 + d) / 32 = valAcc 0 l := by
      rw [Nat.mul_comm, Nat.mul_add_div (by norm_num), Nat.div_eq_of_lt hdlt, Nat.add_zero]
    calc digitsRev (l.length + 1) (valAcc 0 l * 32 + d)
        = (valAcc 0 l * 32 + d) % 32 :: digitsRev l.length ((valAcc 0 l * 32 + d) / 32) := rfl
    _ = d :: digitsRev l.length (valAcc 0 l) := by rw [h1, h2]
    _ = d :: l.reverse := by rw [ih hl]
    _ = (l ++ [d]).reverse := by simp

theorem valAcc_digitsRev (n : Nat) : ∀ v,
    valAcc 0 ((digitsRev n v).reverse) = v % 32 ^ n := by
  induction n with
  | zero => intro v; simp [digitsRev, valAcc, Nat.mod_one]
  | succ n ih =>
    intro v
    calc valAcc 0 ((v % 32 :: digitsRev n (v / 32)).reverse)
        = valAcc 0 ((digitsRev n (v / 32)).reverse ++ [v % 32]) := by rw [List.reverse_cons]
    _ = valAcc 0 ((digitsRev n (v / 32)).reverse) * 32 + v % 32 := valAcc_append ..
    _ = (v / 32 % 32 ^ n) * 32 + v % 32 := by rw [ih]
    _ = v % 32 ^ (n + 1) := by
        rw [pow_succ, Nat.mul_comm (32 ^ n) 32, Nat.mod_mul]
        ring

set_option maxRecDepth 100000

theorem lookup_alphabet : ∀ d, d < 32 → lookupByte (ALPHABET.getD d 0) = d := by decide

theorem lookup_lt_32 : ∀ b, b < 256 → lookupByte b ≠ NO_VALUE → lookupByte b < 32 := by decide

theorem lookup_oob (b : Nat) (hb : 256 ≤ b) : lookupByte b = NO_VALUE := by
  have hlen : LOOKUP.length ≤ b := by
    rw [show LOOKUP.length = 256 from rfl]; exact hb
  simp [lookupByte, List.getD_eq_getElem?_getD, List.getElem?_eq_none hlen]

theorem lookup_valid_lt {b : Nat} (hb : lookupByte b ≠ NO_VALUE) : lookupByte b < 32 := by
  by_cases h : b < 256
  · exact lookup_lt_32 b h hb
  · exact absurd (lookup_oob b (Nat.le_of_not_lt h)) hb

theorem lookup_valid_lt_256 {b : Nat} (hb : lookupByte b ≠ NO_VALUE) : b < 256 := by
  by_contra h
  exact hb (lookup_oob b (Nat.le_of_not_lt h))

theorem alphabet_lookup_upper : ∀ b, b < 256 → lookupByte b ≠ NO_VALUE →
    ALPHABET.getD (lookupByte b) 0 = toUpperByte b := by decide

theorem alphabet_mem : ∀ d, d < 32 → ALPHABET.getD d 0 ∈ ALPHABET := by decide

theorem decodeLoop_invalid (l : List Nat) : ∀ a, (∃ b ∈ l, lookupByte b = NO_VALUE) →
    decodeLoop l a = .error .InvalidChar := by
  induction l with
  | nil => intro a h; simp at h
  | cons b rest ih =>
    intro a h
    by_cases hb : lookupByte b = NO_VALUE
    · simp [decodeLoop, hb]
    · have hrest : ∃ x ∈ rest, lookupByte x = NO_VALUE := by
        rcases h with ⟨x, hx, hlx⟩
        rcases List.mem_cons.mp hx with rfl | hx'
        · exact absurd hlx hb
        · exact ⟨x, hx', hlx⟩
      simp [decodeLoop, hb, ih _ hrest]

theorem valAcc_mod (ds : List Nat) (x : Nat) :
    valAcc (x % 2 ^ 128) ds % 2 ^ 128 = valAcc x ds % 2 ^ 128 := by
  rw [valAcc_split, valAcc_split ds x, Nat.add_mod, Nat.mod_mul_mod,
    ← Nat.add_mod]

theorem decodeLoop_valid (l : List Nat) : ∀ a, (∀ b ∈ l, lookupByte b ≠ NO_VALUE) →
    a < 2 ^ 128 →
    decodeLoop l a = .ok (valAcc a (l.map lookupByte) % 2 ^ 128) := by
  induction l with
  | nil =>
    intro a _ ha
    show Except.ok a = Except.ok (valAcc a [] % 2 ^ 128)
    rw [show valAcc a [] = a from rfl, Nat.mod_eq_of_lt ha]
  | cons b rest ih =>
    intro a hv ha
    have hb : lookupByte b ≠ NO_VALUE := hv b (List.mem_cons_self _ _)
    have hblt : lookupByte b < 32 := lookup_valid_lt hb
    have hdvd : (32 : Nat) ∣ (a * 32) % 2 ^ 128 := by
      have h32 : (32 : Nat) ∣ 2 ^ 128 := ⟨2 ^ 123, by norm_num⟩
      exact (Nat.dvd_mod_iff h32).mpr ⟨a, Nat.mul_comm a 32⟩
    obtain ⟨c, hc⟩ := hdvd
    have hstep : (a * 32) % 2 ^ 128 ||| lookupByte b
        = (a * 32 + lookupByte b) % 2 ^ 128 := by
      have hor : c * 2 ^ 5 ||| lookupByte b = c * 2 ^ 5 + lookupByte b :=
        lor_eq_add (by norm_num [hblt]) c
      have hcm : (32 : Nat) * c = c * 2 ^ 5 := by ring
      have hlt : (a * 32) % 2 ^ 128 + lookupByte b < 2 ^ 128 := by
        have hmlt : (a * 32) % 2 ^ 128 < 2 ^ 128 := Nat.mod_lt _ (by positivity)
        have : c < 2 ^ 123 := by
          have : (32 : Nat) * c < 32 * 2 ^ 123 := by
            rw [← hc]; calc (a * 32) % 2 ^ 128 < 2 ^ 128 := hmlt
            _ = 32 * 2 ^ 123 := by norm_num
          omega
        calc (a * 32) % 2 ^ 128 + lookupByte b = 32 * c + lookupByte b := by rw [hc]
        _ < 32 * c + 32 := by omega
        _ = 32 * (c + 1) := by ring
        _ ≤ 32 * 2 ^ 123 := Nat.mul_le_mul_left _ (by omega)
        _ = 2 ^ 128 := by norm_num
      calc (a * 32) % 2 ^ 128 ||| lookupByte b
          = c * 2 ^ 5 ||| lookupByte b := by rw [hc, hcm]
      _ = c * 2 ^ 5 + lookupByte b := hor
      _ = (a * 32) % 2 ^ 128 + lookupByte b := by rw [hc, hcm]
      _ = ((a * 32) % 2 ^ 128 + lookupByte b) % 2 ^ 128 := (Nat.mod_eq_of_lt hlt).symm
      _ = (a * 32 + lookupByte b) % 2 ^ 128 := by
          rw [Nat.add_mod, Nat.mod_mod_of_dvd, ← Nat.add_mod]
          exact dvd_refl _
    have hrest : ∀ x ∈ rest, lookupByte x ≠ NO_VALUE :=
      fun x hx => hv x (List.mem_cons_of_mem _ hx)
    have ha' : (a * 32 + lookupByte b) % 2 ^ 128 < 2 ^ 128 := Nat.mod_lt _ (by positivity)
    calc decodeLoop (b :: rest) a
        = decodeLoop rest ((a * 32) % 2 ^ 128 ||| lookupByte b) := by
          simp [decodeLoop, hb]
    _ = decodeLoop rest ((a * 32 + lookupByte b) % 2 ^ 128) := by rw [hstep]
    _ = .ok (valAcc ((a * 32 + lookupByte b) % 2 ^ 128) (rest.map lookupByte) % 2 ^ 128) :=
          ih _ hrest ha'
    _ = .ok (valAcc (a * 32 + lookupByte b) (rest.map lookupByte) % 2 ^ 128) := by
          rw [valAcc_mod]
    _ = .ok (valAcc a ((b :: rest).map lookupByte) % 2 ^ 128) := by
          rw [List.map_cons, valAcc_cons]

theorem decode_invalid_length {bytes : List Nat} (h : bytes.length ≠ 26) :
    decode bytes = .error .InvalidLength := by
  rw [decode, if_pos]
  rw [show ULID_LEN = 26 from rfl]
  exact h

theorem decodeLoop_ne_invalid_length (l : List Nat) : ∀ a,
    decodeLoop l a ≠ .error .InvalidLength := by
  induction l with
  | nil => intro a h; exact Except.noConfusion h
  | cons b rest ih =>
    intro a h
    by_cases hb : lookupByte b = NO_VALUE
    · rw [show decodeLoop (b :: rest) a = .error .InvalidChar by simp [decodeLoop, hb]] at h
      exact DecodeError.noConfusion (Except.error.inj h)
    · rw [show decodeLoop (b :: rest) a
          = decodeLoop rest ((a * 32) % 2 ^ 128 ||| lookupByte b) by simp [decodeLoop, hb]] at h
      exact ih _ h

theorem decode_length_iff (bytes : List Nat) :
    decode bytes = .error .InvalidLength ↔ bytes.length ≠ 26 := by
  constructor
  · intro h hlen
    rw [decode, if_neg (by rw [show ULID_LEN = 26 from rfl]; exact fun hc => hc hlen)] at h
    exact decodeLoop_ne_invalid_length bytes 0 h
  · exact decode_invalid_length

theorem decode_valid (bytes : List Nat) (hlen : bytes.length = 26)
    (hv : ∀ b ∈ bytes, lookupByte b ≠ NO_VALUE) :
    decode bytes = .ok (valAcc 0 (bytes.map lookupByte) % 2 ^ 128) := by
  rw [decode, if_neg (by rw [show ULID_LEN = 26 from rfl]; exact fun hc => hc hlen)]
  exact decodeLoop_valid bytes 0 hv (by norm_num)

theorem decode_char_iff (bytes : List Nat) (hlen : bytes.length = 26) :
    decode bytes = .error .InvalidChar ↔ ∃ b ∈ bytes, lookupByte b = NO_VALUE := by
  constructor
  · intro h
    by_contra hno
    push_neg at hno
    rw [decode_valid bytes hlen hno] at h
    exact Except.noConfusion h
  · intro h
    rw [decode, if_neg (by rw [show ULID_LEN = 26 from rfl]; exact fun hc => hc hlen)]
    exact decodeLoop_invalid bytes 0 h

theorem encodeBytes_map (v : Nat) :
    encodeBytes v = ((digitsRev 26 v).reverse).map (fun d => ALPHABET.getD d 0) := by
  rw [encodeBytes, show ULID_LEN = 26 from rfl, encodeLoop_eq_digits, ← List.map_reverse]

theorem encode_length (v : Nat) : (encode v).length = 26 := by
  rw [encode, encodeBytes_map]
  simp [digitsRev_length]

theorem encode_mem_alphabet (v : Nat) : ∀ b ∈ encode v, b ∈ ALPHABET := by
  rw [encode, encodeBytes_map]
  intro b hb
  rcases List.mem_map.mp hb with ⟨d, hd, rfl⟩
  exact alphabet_mem d (digitsRev_lt 26 v d (List.mem_reverse.mp hd))

theorem encode_valid (v : Nat) : ∀ b ∈ encode v, lookupByte b ≠ NO_VALUE := by
  rw [encode, encodeBytes_map]
  intro b hb
  rcases List.mem_map.mp hb with ⟨d, hd, rfl⟩
  have hdlt := digitsRev_lt 26 v d (List.mem_reverse.mp hd)
  rw [lookup_alphabet d hdlt, NO_VALUE]
  omega

theorem encode_lookup (v : Nat) :
    (encode v).map lookupByte = (digitsRev 26 v).reverse := by
  rw [encode, encodeBytes_map, List.map_map]
  have hcong : ∀ d ∈ (digitsRev 26 v).reverse,
      (lookupByte ∘ fun d => ALPHABET.getD d 0) d = id d := by
    intro d hd
    exact lookup_alphabet d (digitsRev_lt 26 v d (List.mem_reverse.mp hd))
  rw [List.map_congr_left hcong, List.map_id]

theorem decode_encode (v : Nat) (hv : v < 2 ^ 128) : decode (encode v) = .ok v := by
  rw [decode, if_neg (by rw [encode_length, show ULID_LEN = 26 from rfl]; exact fun hc => hc rfl)]
  rw [decodeLoop_valid _ 0 (encode_valid v) (by norm_num), encode_lookup, valAcc_digitsRev]
  rw [show (32 : Nat) ^ 26 = 2 ^ 130 by norm_num]
  rw [Nat.mod_eq_of_lt (lt_trans hv (by norm_num)), Nat.mod_eq_of_lt hv]

theorem encode_headD (v : Nat) :
    (encode v).headD 0 = ALPHABET.getD (v / 32 ^ 25 % 32) 0 := by
  rw [encode, encodeBytes_map, show (26 : Nat) = 25 + 1 from rfl, digitsRev_snoc]
  simp

theorem encode_valAcc (ds : List Nat) (hlen : ds.length = 26) (hd : ∀ d ∈ ds, d < 32) :
    encode (valAcc 0 ds) = ds.map (fun d => ALPHABET.getD d 0) := by
  rw [encode, encodeBytes_map, ← hlen, digitsRev_valAcc ds hd, List.reverse_reverse]

theorem fromPair_val (msb lsb : Nat) :
    (Ulid.fromPair msb lsb).val = (msb % 2 ^ 64) * 2 ^ 64 + lsb % 2 ^ 64 := by
  show (msb % 2 ^ 64) * 2 ^ 64 ||| lsb % 2 ^ 64 = _
  exact lor_eq_add (Nat.mod_lt _ (by positivity)) _

theorem fromPair_lt (msb lsb : Nat) : (Ulid.fromPair msb lsb).val < 2 ^ 128 := by
  rw [fromPair_val]
  have h1 : msb % 2 ^ 64 < 2 ^ 64 := Nat.mod_lt _ (by positivity)
  have h2 : lsb % 2 ^ 64 < 2 ^ 64 := Nat.mod_lt _ (by positivity)
  calc (msb % 2 ^ 64) * 2 ^ 64 + lsb % 2 ^ 64
      < (msb % 2 ^ 64) * 2 ^ 64 + 2 ^ 64 := by omega
  _ = (msb % 2 ^ 64 + 1) * 2 ^ 64 := by ring
  _ ≤ 2 ^ 64 * 2 ^ 64 := Nat.mul_le_mul_right _ (by omega)
  _ = 2 ^ 128 := by norm_num

theorem from_datetime_val (dtMs : Int) (r16 r64 : Nat) :
    (Ulid.from_datetime_with_source dtMs r16 r64).val
      = (dtMs.toNat % 2 ^ 48) * 2 ^ 80 + (r16 % 2 ^ 16) * 2 ^ 64 + r64 % 2 ^ 64 := by
  rw [Ulid.from_datetime_with_source]
  have ht48 : dtMs.toNat % 2 ^ Ulid.TIME_BITS = dtMs.toNat % 2 ^ 48 := rfl
  have htlt : dtMs.toNat % 2 ^ 48 < 2 ^ 48 := Nat.mod_lt _ (by positivity)
  have h1 : (dtMs.toNat % 2 ^ 48) % 2 ^ 64 = dtMs.toNat % 2 ^ 48 :=
    Nat.mod_eq_of_lt (by omega)
  have hmul : (dtMs.toNat % 2 ^ 48) * 2 ^ 16 < 2 ^ 64 := by
    have hstep : (dtMs.toNat % 2 ^ 48) * 2 ^ 16 < 2 ^ 48 * 2 ^ 16 :=
      (Nat.mul_lt_mul_right (by norm_num)).mpr htlt
    calc (dtMs.toNat % 2 ^ 48) * 2 ^ 16 < 2 ^ 48 * 2 ^ 16 := hstep
    _ = 2 ^ 64 := by norm_num
  have h2 : (dtMs.toNat % 2 ^ 48) * 2 ^ 16 % 2 ^ 64 = (dtMs.toNat % 2 ^ 48) * 2 ^ 16 :=
    Nat.mod_eq_of_lt hmul
  have h3 : (dtMs.toNat % 2 ^ 48) * 2 ^ 16 ||| r16 % 2 ^ 16
      = (dtMs.toNat % 2 ^ 48) * 2 ^ 16 + r16 % 2 ^ 16 :=
    lor_eq_add (Nat.mod_lt _ (by positivity)) _
  have hmsb : (dtMs.toNat % 2 ^ 48) * 2 ^ 16 + r16 % 2 ^ 16 < 2 ^ 64 := by
    have hr : r16 % 2 ^ 16 < 2 ^ 16 := Nat.mod_lt _ (by positivity)
    calc (dtMs.toNat % 2 ^ 48) * 2 ^ 16 + r16 % 2 ^ 16
        < (dtMs.toNat % 2 ^ 48) * 2 ^ 16 + 2 ^ 16 := by omega
    _ = (dtMs.toNat % 2 ^ 48 + 1) * 2 ^ 16 := by ring
    _ ≤ 2 ^ 48 * 2 ^ 16 := Nat.mul_le_mul_right _ (by omega)
    _ = 2 ^ 64 := by norm_num
  rw [ht48, h1, h2, h3, fromPair_val, Nat.mod_eq_of_lt hmsb, Nat.mod_mod_of_dvd r64 dvd_rfl]
  ring

theorem from_datetime_lt (dtMs : Int) (r16 r64 : Nat) :
    (Ulid.from_datetime_with_source dtMs r16 r64).val < 2 ^ 128 := by
  rw [Ulid.from_datetime_with_source]
  exact fromPair_lt _ _

theorem from_datetime_timestamp (dtMs : Int) (r16 r64 : Nat) :
    (Ulid.from_datetime_with_source dtMs r16 r64).timestamp_ms = dtMs.toNat % 2 ^ 48 := by
  rw [Ulid.timestamp_ms, from_datetime_val, show Ulid.RAND_BITS = 80 from rfl]
  have hr16 : r16 % 2 ^ 16 < 2 ^ 16 := Nat.mod_lt _ (by positivity)
  have hr64 : r64 % 2 ^ 64 < 2 ^ 64 := Nat.mod_lt _ (by positivity)
  have hlow : (r16 % 2 ^ 16) * 2 ^ 64 + r64 % 2 ^ 64 < 2 ^ 80 := by
    calc (r16 % 2 ^ 16) * 2 ^ 64 + r64 % 2 ^ 64
        < (r16 % 2 ^ 16) * 2 ^ 64 + 2 ^ 64 := by omega
    _ = (r16 % 2 ^ 16 + 1) * 2 ^ 64 := by ring
    _ ≤ 2 ^ 16 * 2 ^ 64 := Nat.mul_le_mul_right _ (by omega)
    _ = 2 ^ 80 := by norm_num
  have hdiv : ((dtMs.toNat % 2 ^ 48) * 2 ^ 80 + (r16 % 2 ^ 16) * 2 ^ 64 + r64 % 2 ^ 64) / 2 ^ 80
      = dtMs.toNat % 2 ^ 48 := by
    rw [Nat.add_assoc, Nat.mul_comm (dtMs.toNat % 2 ^ 48) (2 ^ 80),
      Nat.mul_add_div (by positivity), Nat.div_eq_of_lt hlow, Nat.add_zero]
  rw [hdiv]
  exact Nat.mod_eq_of_lt (by have := Nat.mod_lt dtMs.toNat (y := 2 ^ 48) (by positivity); omega)

theorem div_succ_eq {a n : Nat} (hn : 0 < n) (h : a % n ≠ n - 1) : (a + 1) / n = a / n := by
  have h1 := Nat.div_add_mod a n
  have h2 : a % n < n := Nat.mod_lt _ hn
  have h3 : a % n + 1 < n := by omega
  calc (a + 1) / n = (n * (a / n) + (a % n + 1)) / n := by rw [← Nat.add_assoc, h1]
  _ = a / n + (a % n + 1) / n := Nat.mul_add_div hn _ _
  _ = a / n := by rw [Nat.div_eq_of_lt h3, Nat.add_zero]

theorem increment_none_iff (u : Ulid) :
    u.increment = none ↔ u.val % 2 ^ 80 = 2 ^ 80 - 1 := by
  rw [Ulid.increment, show Ulid.RAND_BITS = 80 from rfl]
  by_cases h : u.val % 2 ^ 80 = 2 ^ 80 - 1
  · simp [h]
  · simp [h]

theorem increment_some_iff (u : Ulid) :
    u.increment = some ⟨u.val + 1⟩ ↔ u.val % 2 ^ 80 ≠ 2 ^ 80 - 1 := by
  rw [Ulid.increment, show Ulid.RAND_BITS = 80 from rfl]
  by_cases h : u.val % 2 ^ 80 = 2 ^ 80 - 1
  · simp [h]
  · simp [h]

theorem increment_some_val {u w : Ulid} (h : u.increment = some w) : w.val = u.val + 1 := by
  rw [Ulid.increment] at h
  by_cases hc : u.val % 2 ^ Ulid.RAND_BITS = 2 ^ Ulid.RAND_BITS - 1
  · rw [if_pos hc] at h; exact Option.noConfusion h
  · rw [if_neg hc] at h
    rw [← Option.some.inj h]

theorem increment_not_max {u w : Ulid} (h : u.increment = some w) :
    u.val % 2 ^ 80 ≠ 2 ^ 80 - 1 := by
  intro hc
  rw [(increment_none_iff u).mpr hc] at h
  exact Option.noConfusion h

theorem increment_timestamp {u w : Ulid} (h : u.increment = some w) :
    w.timestamp_ms = u.timestamp_ms := by
  rw [Ulid.timestamp_ms, Ulid.timestamp_ms, increment_some_val h,
    show Ulid.RAND_BITS = 80 from rfl,
    div_succ_eq (by positivity) (increment_not_max h)]

theorem increment_lt {u w : Ulid} (hu : u.val < 2 ^ 128) (h : u.increment = some w) :
    w.val < 2 ^ 128 := by
  rw [increment_some_val h]
  have hne : u.val ≠ 2 ^ 128 - 1 := by
    intro hc
    apply increment_not_max h
    rw [hc]
    norm_num
  omega

theorem generate_advance (g : Generator) (dtMs : Int) (r16 r64 : Nat)
    (h : ¬ dtMs.toNat ≤ g.previous.timestamp_ms) :
    g.generate_from_datetime_with_source dtMs r16 r64
      = (.ok (Ulid.from_datetime_with_source dtMs r16 r64),
         ⟨Ulid.from_datetime_with_source dtMs r16 r64⟩) := by
  rw [Generator.generate_from_datetime_with_source]
  simp only [if_neg h]

theorem generate_collision (g : Generator) (dtMs : Int) (r16 r64 : Nat)
    (h : dtMs.toNat ≤ g.previous.timestamp_ms) :
    g.generate_from_datetime_with_source dtMs r16 r64
      = (match g.previous.increment with
         | some next => (.ok next, (⟨next⟩ : Generator))
         | none => (.error .Overflow, g)) := by
  rw [Generator.generate_from_datetime_with_source]
  simp only [if_pos h]

theorem timestamp_ms_eq_div {p : Ulid} (hp : p.val < 2 ^ 128) :
    p.timestamp_ms = p.val / 2 ^ 80 := by
  rw [Ulid.timestamp_ms, show Ulid.RAND_BITS = 80 from rfl]
  apply Nat.mod_eq_of_lt
  have hd : p.val / 2 ^ 80 < 2 ^ 48 := by
    apply Nat.div_lt_of_lt_mul
    calc p.val < 2 ^ 128 := hp
    _ = 2 ^ 80 * 2 ^ 48 := by norm_num
  omega

theorem generate_ok_gt {g : Generator} {dtMs : Int} {r16 r64 : Nat} {u : Ulid} {g' : Generator}
    (hp : g.previous.val < 2 ^ 128) (hdt : dtMs.toNat < 2 ^ 48)
    (h : g.generate_from_datetime_with_source dtMs r16 r64 = (.ok u, g')) :
    g.previous.val < u.val ∧ g'.previous = u ∧ u.val < 2 ^ 128 := by
  by_cases hle : dtMs.toNat ≤ g.previous.timestamp_ms
  · rw [generate_collision g dtMs r16 r64 hle] at h
    cases hinc : g.previous.increment with
    | none =>
      rw [hinc] at h
      exact absurd (Prod.mk.inj h).1 (fun hc => Except.noConfusion hc)
    | some w =>
      rw [hinc] at h
      obtain ⟨h1, h2⟩ := Prod.mk.inj h
      have hu : w = u := Except.ok.inj h1
      subst hu
      refine ⟨?_, by rw [← h2], increment_lt hp hinc⟩
      rw [increment_some_val hinc]
      omega
  · rw [generate_advance g dtMs r16 r64 hle] at h
    obtain ⟨h1, h2⟩ := Prod.mk.inj h
    have hu : Ulid.from_datetime_with_source dtMs r16 r64 = u := Except.ok.inj h1
    subst hu
    refine ⟨?_, by rw [← h2], from_datetime_lt ..⟩
    have hut : (Ulid.from_datetime_with_source dtMs r16 r64).timestamp_ms = dtMs.toNat := by
      rw [from_datetime_timestamp, Nat.mod_eq_of_lt hdt]
    have hdiv : g.previous.val / 2 ^ 80
        < (Ulid.from_datetime_with_source dtMs r16 r64).val / 2 ^ 80 := by
      rw [← timestamp_ms_eq_div hp, ← timestamp_ms_eq_div (from_datetime_lt dtMs r16 r64), hut]
      exact Nat.lt_of_not_le hle
    by_contra hc
    push_neg at hc
    exact absurd (Nat.div_le_div_right hc) (Nat.not_le_of_lt hdiv)

theorem generate_error_state {g : Generator} {dtMs : Int} {r16 r64 : Nat} {e : MonotonicError}
    {g' : Generator} (h : g.generate_from_datetime_with_source dtMs r16 r64 = (.error e, g')) :
    g' = g := by
  by_cases hle : dtMs.toNat ≤ g.previous.timestamp_ms
  · rw [generate_collision g dtMs r16 r64 hle] at h
    cases hinc : g.previous.increment with
    | none => rw [hinc] at h; exact ((Prod.mk.inj h).2).symm
    | some w =>
      rw [hinc] at h
      exact absurd (Prod.mk.inj h).1 (fun hc => Except.noConfusion hc)
  · rw [generate_advance g dtMs r16 r64 hle] at h
    exact absurd (Prod.mk.inj h).1 (fun hc => Except.noConfusion hc)

theorem runList_chain (calls : List (Int × Nat × Nat)) : ∀ g : Generator,
    g.previous.val < 2 ^ 128 →
    (∀ c ∈ calls, (c.1).toNat < 2 ^ 48) →
    List.Chain' (fun a b : Ulid => a.val < b.val) (okResults (g.runList calls))
      ∧ ∀ u ∈ okResults (g.runList calls), g.previous.val < u.val := by
  induction calls with
  | nil =>
    intro g hp hc
    exact ⟨List.chain'_nil, by intro u hu; cases hu⟩
  | cons c rest ih =>
    intro g hp hc
    obtain ⟨dt, r16, r64⟩ := c
    have hdt : dt.toNat < 2 ^ 48 := hc _ (List.mem_cons_self _ _)
    have hrest : ∀ x ∈ rest, (x.1).toNat < 2 ^ 48 :=
      fun x hx => hc x (List.mem_cons_of_mem _ hx)
    cases hout : g.generate_from_datetime_with_source dt r16 r64 with
    | mk res g2 =>
      have hrun : g.runList ((dt, r16, r64) :: rest) = res :: g2.runList rest := by
        simp [Generator.runList, hout]
      cases res with
      | error e =>
        have hg2 : g2 = g := generate_error_state hout
        rw [hrun, hg2]
        rw [show okResults (Except.error e :: g.runList rest)
          = okResults (g.runList rest) from rfl]
        exact ih g hp hrest
      | ok u =>
        obtain ⟨hgt, hst, hult⟩ := generate_ok_gt hp hdt hout
        have hg2 : g2.previous.val < 2 ^ 128 := by rw [hst]; exact hult
        obtain ⟨hchain, hall⟩ := ih g2 hg2 hrest
        rw [hrun]
        rw [show okResults (Except.ok u :: g2.runList rest)
          = u :: okResults (g2.runList rest) from rfl]
        constructor
        · apply List.chain'_cons'.mpr
          refine ⟨?_, hchain⟩
          intro y hy
          have hym := List.mem_of_mem_head? hy
          have hlt := hall y hym
          rw [hst] at hlt
          exact hlt
        · intro x hx
          rcases List.mem_cons.mp hx with rfl | hx'
          · exact hgt
          · have hlt := hall x hx'
            rw [hst] at hlt
            exact lt_trans hgt hlt

theorem random_low_lt (r16 r64 : Nat) :
    (r16 % 2 ^ 16) * 2 ^ 64 + r64 % 2 ^ 64 < 2 ^ 80 := by
  have h1 : r16 % 2 ^ 16 < 2 ^ 16 := Nat.mod_lt _ (by positivity)
  have h2 : r64 % 2 ^ 64 < 2 ^ 64 := Nat.mod_lt _ (by positivity)
  calc (r16 % 2 ^ 16) * 2 ^ 64 + r64 % 2 ^ 64
      < (r16 % 2 ^ 16) * 2 ^ 64 + 2 ^ 64 := by omega
  _ = (r16 % 2 ^ 16 + 1) * 2 ^ 64 := by ring
  _ ≤ 2 ^ 16 * 2 ^ 64 := Nat.mul_le_mul_right _ (by omega)
  _ = 2 ^ 80 := by norm_num

/-- C1 counterexample: the claim fails as stated.  Starting from a fresh generator, the
calls (timestamp 1 ms, zero randomness) then (timestamp 2^48 ms, zero randomness) both
return Ok, the second supplied timestamp is strictly greater than the stored previous
identifier's timestamp, yet the second identifier (value 0, after 48-bit truncation of
the timestamp) is smaller than the first (value 2^80) and its timestamp differs from
the supplied time. -/
theorem claim_C1_counterexample :
    okResults (Generator.new.runList [((1 : Int), 0, 0), (((2 ^ 48 : Nat) : Int), 0, 0)])
        = [⟨2 ^ 80⟩, ⟨0⟩]
      ∧ ¬ List.Chain' (fun a b : Ulid => a.val < b.val) [⟨2 ^ 80⟩, (⟨0⟩ : Ulid)]
      ∧ (Ulid.mk (2 ^ 80)).timestamp_ms < (((2 ^ 48 : Nat) : Int)).toNat
      ∧ (Ulid.mk 0).timestamp_ms ≠ (((2 ^ 48 : Nat) : Int)).toNat := by
  refine ⟨by rfl, fun hc => ?_, by decide, by decide⟩
  exact absurd (List.chain'_cons.mp hc).1 (by decide)

/-- C1 amended: restricted to supplied timestamps whose millisecond value fits in 48
bits (no truncation), every sequence of calls from a state whose previous value is a
u128 yields Ok results that are strictly increasing, each greater than the stored
previous identifier; and a call with a supplied timestamp strictly greater than the
stored previous identifier's timestamp returns, for any random draws, an Ok identifier
strictly greater than the previous one whose timestamp equals the supplied time. -/
theorem claim_C1_monotonic_amended (g : Generator) (calls : List (Int × Nat × Nat))
    (hp : g.previous.val < 2 ^ 128)
    (hts : ∀ c ∈ calls, (c.1).toNat < 2 ^ 48) :
    (List.Chain' (fun a b : Ulid => a.val < b.val) (okResults (g.runList calls))
      ∧ ∀ u ∈ okResults (g.runList calls), g.previous.val < u.val)
      ∧ ∀ dtMs : Int, ∀ r16 r64 : Nat, dtMs.toNat < 2 ^ 48 →
          g.previous.timestamp_ms < dtMs.toNat →
          g.generate_from_datetime_with_source dtMs r16 r64
              = (.ok (Ulid.from_datetime_with_source dtMs r16 r64),
                 ⟨Ulid.from_datetime_with_source dtMs r16 r64⟩)
            ∧ g.previous.val < (Ulid.from_datetime_with_source dtMs r16 r64).val
            ∧ (Ulid.from_datetime_with_source dtMs r16 r64).timestamp_ms = dtMs.toNat := by
  refine ⟨runList_chain calls g hp hts, ?_⟩
  intro dtMs r16 r64 hdt hgt
  have hadv := generate_advance g dtMs r16 r64 (Nat.not_le_of_lt hgt)
  refine ⟨hadv, (generate_ok_gt hp hdt hadv).1, ?_⟩
  rw [from_datetime_timestamp, Nat.mod_eq_of_lt hdt]

/-- C1 witness: three calls with small timestamps from a fresh generator produce a
strictly increasing Ok sequence. -/
theorem claim_C1_monotonic_amended_witness :
    List.Chain' (fun a b : Ulid => a.val < b.val)
        (okResults (Generator.new.runList [((5 : Int), 1, 2), ((5 : Int), 3, 4), ((7 : Int), 0, 0)]))
      ∧ ∀ u ∈ okResults (Generator.new.runList [((5 : Int), 1, 2), ((5 : Int), 3, 4), ((7 : Int), 0, 0)]),
          Generator.new.previous.val < u.val :=
  (claim_C1_monotonic_amended Generator.new
    [((5 : Int), 1, 2), ((5 : Int), 3, 4), ((7 : Int), 0, 0)] (by decide) (by decide)).1

/-- C2: for every 128-bit value v, decoding the 26-character encoding of v yields
exactly v. -/
theorem claim_C2_roundtrip (v : Nat) (hv : v < 2 ^ 128) : decode (encode v) = .ok v :=
  decode_encode v hv

/-- C2 witness at the all-0x41-bytes test vector of the repository. -/
theorem claim_C2_roundtrip_witness :
    (0x41414141414141414141414141414141 : Nat) < 2 ^ 128
      ∧ decode (encode 0x41414141414141414141414141414141)
          = .ok 0x41414141414141414141414141414141 :=
  ⟨by norm_num, claim_C2_roundtrip 0x41414141414141414141414141414141 (by norm_num)⟩

/-- C3 counterexample: the claim fails as stated.  The 26-character alphabet string
"8" followed by twenty-five "0"s is valid, but its 130-bit numeric value is truncated
to 128 bits by decode (8 * 32^25 = 2^128 wraps to 0), so re-encoding gives the all-"0"
string, not the uppercased input. -/
theorem claim_C3_counterexample :
    (56 :: List.replicate 25 48).length = 26
      ∧ (∀ b ∈ 56 :: List.replicate 25 48, lookupByte b ≠ NO_VALUE)
      ∧ decode (56 :: List.replicate 25 48) = .ok 0
      ∧ encode 0 ≠ (56 :: List.replicate 25 48).map toUpperByte := by
  exact ⟨by decide, by decide, by rfl, by decide⟩

/-- C3 amended: for every 26-character string over the Crockford alphabet (either
case) whose first character decodes to a value below 8 (so that the 130-bit
accumulation fits in 128 bits), decode succeeds and re-encoding the decoded value
yields the uppercase form of the string. -/
theorem claim_C3_roundtrip_amended (s : List Nat) (hlen : s.length = 26)
    (hv : ∀ b ∈ s, lookupByte b ≠ NO_VALUE)
    (hfirst : lookupByte (s.headD 0) < 8) :
    ∃ v, decode s = .ok v ∧ encode v = s.map toUpperByte := by
  have hds_len : (s.map lookupByte).length = 26 := by rw [List.length_map, hlen]
  have hds_lt : ∀ d ∈ s.map lookupByte, d < 32 := by
    intro d hd
    rcases List.mem_map.mp hd with ⟨b, hb, rfl⟩
    exact lookup_valid_lt (hv b hb)
  have hbound : valAcc 0 (s.map lookupByte) < 2 ^ 128 := by
    cases s with
    | nil => simp at hlen
    | cons b rest =>
      have hd0 : lookupByte b < 8 := hfirst
      have hrest_lt : ∀ d ∈ rest.map lookupByte, d < 32 := by
        intro d hd
        exact hds_lt d (by rw [List.map_cons]; exact List.mem_cons_of_mem _ hd)
      have hrlen : (rest.map lookupByte).length = 25 := by
        rw [List.length_map]
        simpa using hlen
      calc valAcc 0 ((b :: rest).map lookupByte)
          = valAcc (lookupByte b) (rest.map lookupByte) := by
            rw [List.map_cons, valAcc_cons, Nat.zero_mul, Nat.zero_add]
      _ < (lookupByte b + 1) * 32 ^ (rest.map lookupByte).length :=
            valAcc_lt _ hrest_lt _
      _ ≤ 8 * 32 ^ (rest.map lookupByte).length :=
            Nat.mul_le_mul_right _ (by omega)
      _ = 2 ^ 128 := by rw [hrlen]; norm_num
  refine ⟨valAcc 0 (s.map lookupByte), ?_, ?_⟩
  · rw [decode_valid s hlen hv, Nat.mod_eq_of_lt hbound]
  · rw [encode_valAcc _ hds_len hds_lt, List.map_map]
    apply List.map_congr_left
    intro b hb
    exact alphabet_lookup_upper b (lookup_valid_lt_256 (hv b hb)) (hv b hb)

/-- C3 witness at the repository's mixed test vector (the all-0x41 string). -/
theorem claim_C3_roundtrip_amended_witness :
    ([50, 49, 56, 53, 48, 77, 50, 71, 65, 49, 56, 53, 48, 77,
      50, 71, 65, 49, 56, 53, 48, 77, 50, 71, 65, 49] : List Nat).length = 26
      ∧ ∃ v, decode [50, 49, 56, 53, 48, 77, 50, 71, 65, 49, 56, 53, 48, 77,
          50, 71, 65, 49, 56, 53, 48, 77, 50, 71, 65, 49] = .ok v
        ∧ encode v = ([50, 49, 56, 53, 48, 77, 50, 71, 65, 49, 56, 53, 48, 77,
            50, 71, 65, 49, 56, 53, 48, 77, 50, 71, 65, 49] : List Nat).map toUpperByte :=
  ⟨by decide, claim_C3_roundtrip_amended _ (by decide) (by decide) (by decide)⟩

/-- C4: decode rejects any byte-length other than 26 with InvalidLength (and only
those inputs, so the length check has priority over character checks); on 26-byte
inputs it fails with InvalidChar exactly when some byte is outside the accepted
alphabet and succeeds otherwise; the ambiguous letters I, L, O, U in both cases are
outside the alphabet, as is every byte from 123 up (all non-ASCII bytes) and every
byte below 48 (all control bytes); lowercase letters decode to the same values as the
corresponding uppercase letters.  decode is a total Lean function, so it never
panics. -/
theorem claim_C4_decode_errors (bytes : List Nat) :
    (decode bytes = .error .InvalidLength ↔ bytes.length ≠ 26)
      ∧ (bytes.length = 26 →
          ((decode bytes = .error .InvalidChar) ↔ ∃ b ∈ bytes, lookupByte b = NO_VALUE))
      ∧ (bytes.length = 26 → (∀ b ∈ bytes, lookupByte b ≠ NO_VALUE) →
          ∃ v, decode bytes = .ok v)
      ∧ (∀ b ∈ [73, 76, 79, 85, 105, 108, 111, 117], lookupByte b = NO_VALUE)
      ∧ (∀ b, b < 256 → 123 ≤ b → lookupByte b = NO_VALUE)
      ∧ (∀ b, b < 48 → lookupByte b = NO_VALUE)
      ∧ (∀ b, b < 256 → 97 ≤ b → b ≤ 122 → lookupByte b = lookupByte (b - 32)) := by
  refine ⟨decode_length_iff bytes, fun hlen => decode_char_iff bytes hlen, ?_,
    by decide, by decide, by decide, by decide⟩
  intro hlen hv
  exact ⟨_, decode_valid bytes hlen hv⟩

/-- C4 witness: a 26-byte all-"I" string is rejected as InvalidChar, the empty string
as InvalidLength, and the valid test vector decodes successfully. -/
theorem claim_C4_decode_errors_witness :
    decode (List.replicate 26 73) = .error .InvalidChar
      ∧ decode [] = .error .InvalidLength
      ∧ ∃ v, decode [50, 49, 56, 53, 48, 77, 50, 71, 65, 49, 56, 53, 48, 77,
          50, 71, 65, 49, 56, 53, 48, 77, 50, 71, 65, 49] = .ok v := by
  refine ⟨?_, ?_, ?_⟩
  · exact ((claim_C4_decode_errors (List.replicate 26 73)).2.1 (by decide)).mpr (by decide)
  · exact (claim_C4_decode_errors []).1.mpr (by decide)
  · exact (claim_C4_decode_errors _).2.2.1 (by decide) (by decide)

/-- C5: increment succeeds exactly when the low 80-bit random field is not all ones;
on success the new identifier is the old value plus one and its 48-bit timestamp field
is unchanged (the carry never reaches the timestamp bits); when the random field is
all ones it returns none. -/
theorem claim_C5_increment (u : Ulid) :
    (u.increment = none ↔ u.val % 2 ^ 80 = 2 ^ 80 - 1)
      ∧ (∀ w, u.increment = some w →
          w.val = u.val + 1 ∧ w.timestamp_ms = u.timestamp_ms) :=
  ⟨increment_none_iff u, fun _ hw => ⟨increment_some_val hw, increment_timestamp hw⟩⟩

/-- C5 witness: an identifier with random field at maximum fails to increment, and a
small identifier increments to its successor with the same timestamp. -/
theorem claim_C5_increment_witness :
    (Ulid.mk (2 ^ 80 - 1)).increment = none
      ∧ (Ulid.mk 6).val = (Ulid.mk 5).val + 1
      ∧ (Ulid.mk 6).timestamp_ms = (Ulid.mk 5).timestamp_ms := by
  refine ⟨((claim_C5_increment ⟨2 ^ 80 - 1⟩).1).mpr (by decide), ?_, ?_⟩
  · exact ((claim_C5_increment ⟨5⟩).2 ⟨6⟩ (by decide)).1
  · exact ((claim_C5_increment ⟨5⟩).2 ⟨6⟩ (by decide)).2

/-- C6: when the supplied timestamp (clamped to the epoch) is at most the stored
previous identifier's timestamp, the generator draws no randomness (the result does
not depend on the random draws) and returns previous.increment(), storing it as the
new previous; if the previous random field is at the 80-bit maximum the call returns
Overflow and the stored previous identifier is unchanged. -/
theorem claim_C6_collision (g : Generator) (dtMs : Int) (r16 r64 r16' r64' : Nat)
    (h : dtMs.toNat ≤ g.previous.timestamp_ms) :
    (g.generate_from_datetime_with_source dtMs r16 r64
        = g.generate_from_datetime_with_source dtMs r16' r64')
      ∧ (∀ n, g.previous.increment = some n →
          g.generate_from_datetime_with_source dtMs r16 r64 = (.ok n, ⟨n⟩))
      ∧ (g.previous.increment = none →
          g.generate_from_datetime_with_source dtMs r16 r64 = (.error .Overflow, g))
      ∧ (g.previous.val % 2 ^ 80 = 2 ^ 80 - 1 →
          g.generate_from_datetime_with_source dtMs r16 r64 = (.error .Overflow, g)) := by
  refine ⟨?_, ?_, ?_, ?_⟩
  · rw [generate_collision g dtMs r16 r64 h, generate_collision g dtMs r16' r64' h]
  · intro n hn
    rw [generate_collision g dtMs r16 r64 h, hn]
  · intro hn
    rw [generate_collision g dtMs r16 r64 h, hn]
  · intro hmax
    rw [generate_collision g dtMs r16 r64 h, (increment_none_iff _).mpr hmax]

/-- C6 witness: at a maxed-out random field the generator reports Overflow and keeps
its state; at a small previous value it returns the incremented identifier. -/
theorem claim_C6_collision_witness :
    (Generator.mk ⟨2 ^ 80 - 1⟩).generate_from_datetime_with_source 0 0 0
        = (.error .Overflow, ⟨⟨2 ^ 80 - 1⟩⟩)
      ∧ (Generator.mk ⟨5⟩).generate_from_datetime_with_source 0 1 2 = (.ok ⟨6⟩, ⟨⟨6⟩⟩) := by
  constructor
  · exact (claim_C6_collision ⟨⟨2 ^ 80 - 1⟩⟩ 0 0 0 0 0 (by decide)).2.2.2 (by decide)
  · exact (claim_C6_collision ⟨⟨5⟩⟩ 0 1 2 1 2 (by decide)).2.1 ⟨6⟩ (by decide)

/-- C7: constructing an identifier from any millisecond timestamp always succeeds (the
constructor is total) and the stored timestamp field is the input reduced modulo 2^48,
for any random draws. -/
theorem claim_C7_timestamp_truncation (t r16 r64 : Nat) :
    (Ulid.from_datetime_with_source (t : Int) r16 r64).timestamp_ms = t % 2 ^ 48 := by
  rw [from_datetime_timestamp, Int.toNat_ofNat]

/-- C8 counterexample: the claim fails as stated.  With t1 = 1 and t2 = 2^48 > t1 and
zero random payloads, the identifier built from t1 has value 2^80 while the identifier
built from t2 has value 0 (48-bit truncation), so the first is not below the second. -/
theorem claim_C8_counterexample :
    ((1 : Int) < ((2 ^ 48 : Nat) : Int))
      ∧ ¬ (Ulid.from_datetime_with_source 1 0 0).val
          < (Ulid.from_datetime_with_source ((2 ^ 48 : Nat) : Int) 0 0).val := by
  exact ⟨by norm_num, by decide⟩

/-- C8 amended: for identifiers built from millisecond timestamps t1 < t2 where t2
fits in 48 bits, the first compares strictly below the second as a 128-bit value, for
any random payloads. -/
theorem claim_C8_order_amended (t1 t2 r16a r64a r16b r64b : Nat)
    (h12 : t1 < t2) (h2 : t2 < 2 ^ 48) :
    (Ulid.from_datetime_with_source (t1 : Int) r16a r64a).val
      < (Ulid.from_datetime_with_source (t2 : Int) r16b r64b).val := by
  rw [from_datetime_val, from_datetime_val, Int.toNat_ofNat, Int.toNat_ofNat]
  rw [Nat.mod_eq_of_lt (lt_trans h12 h2), Nat.mod_eq_of_lt h2]
  rw [Nat.add_assoc, Nat.add_assoc]
  calc t1 * 2 ^ 80 + ((r16a % 2 ^ 16) * 2 ^ 64 + r64a % 2 ^ 64)
      < t1 * 2 ^ 80 + 2 ^ 80 := Nat.add_lt_add_left (random_low_lt r16a r64a) _
  _ = (t1 + 1) * 2 ^ 80 := by ring
  _ ≤ t2 * 2 ^ 80 := Nat.mul_le_mul_right _ h12
  _ ≤ t2 * 2 ^ 80 + ((r16b % 2 ^ 16) * 2 ^ 64 + r64b % 2 ^ 64) := Nat.le_add_right _ _

/-- C8 witness at timestamps 1 and 2 with arbitrary random payloads. -/
theorem claim_C8_order_amended_witness :
    (Ulid.from_datetime_with_source ((1 : Nat) : Int) 3 4).val
      < (Ulid.from_datetime_with_source ((2 : Nat) : Int) 5 6).val :=
  claim_C8_order_amended 1 2 3 4 5 6 (by norm_num) (by norm_num)

/-- C9: encode is total: it always produces exactly 26 bytes, each in the uppercase
Crockford alphabet, and for 128-bit inputs the first character's decoded value is
below 8; encode_to fails with BufferTooSmall exactly when the buffer is shorter than
26 bytes and otherwise returns length 26 (writing the encoding over the buffer's
first 26 bytes). -/
theorem claim_C9_encode_total (v : Nat) (buffer : List Nat) :
    (encode v).length = 26
      ∧ (∀ b ∈ encode v, b ∈ ALPHABET)
      ∧ (v < 2 ^ 128 → lookupByte ((encode v).headD 0) < 8)
      ∧ (encode_to v buffer = .error .BufferTooSmall ↔ buffer.length < 26)
      ∧ (26 ≤ buffer.length → encode_to v buffer = .ok (26, encode v ++ buffer.drop 26)) := by
  refine ⟨encode_length v, encode_mem_alphabet v, ?_, ?_, ?_⟩
  · intro hv
    rw [encode_headD]
    have h125 : v / 32 ^ 25 < 8 := by
      rw [show (32 : Nat) ^ 25 = 2 ^ 125 by norm_num]
      apply Nat.div_lt_of_lt_mul
      calc v < 2 ^ 128 := hv
      _ = 2 ^ 125 * 8 := by norm_num
    rw [Nat.mod_eq_of_lt (by omega), lookup_alphabet _ (by omega)]
    omega
  · rw [encode_to, show ULID_LEN = 26 from rfl]
    by_cases hb : buffer.length < 26
    · simp [hb]
    · simp [hb]
  · intro hb
    rw [encode_to, if_neg (by rw [show ULID_LEN = 26 from rfl]; omega)]
    rfl

/-- C9 witness: encode of 0 has the stated shape and encode_to behaves as stated on an
empty and on a 26-byte buffer. -/
theorem claim_C9_encode_total_witness :
    (encode 0).length = 26
      ∧ lookupByte ((encode 0).headD 0) < 8
      ∧ encode_to 0 [] = .error .BufferTooSmall
      ∧ encode_to 0 (List.replicate 26 0) = .ok (26, encode 0 ++ (List.replicate 26 0).drop 26) := by
  obtain ⟨h1, h2, h3, h4, h5⟩ := claim_C9_encode_total 0 []
  obtain ⟨g1, g2, g3, g4, g5⟩ := claim_C9_encode_total 0 (List.replicate 26 0)
  exact ⟨h1, h3 (by norm_num), h4.mpr (by decide), g5 (by decide)⟩

/-- C10: a pre-epoch time clamps to 0 milliseconds, so construction succeeds with
timestamp field 0 and the monotonic generator treats any pre-epoch candidate time as
not advancing: it takes the increment branch regardless of its stored previous
identifier and of the random draws. -/
theorem claim_C10_pre_epoch (g : Generator) (dtMs : Int) (r16 r64 : Nat) (h : dtMs < 0) :
    (Ulid.from_datetime_with_source dtMs r16 r64).timestamp_ms = 0
      ∧ g.generate_from_datetime_with_source dtMs r16 r64
          = (match g.previous.increment with
             | some next => (.ok next, (⟨next⟩ : Generator))
             | none => (.error .Overflow, g)) := by
  have ht : dtMs.toNat = 0 := Int.toNat_of_nonpos (le_of_lt h)
  constructor
  · rw [from_datetime_timestamp, ht, Nat.zero_mod]
  · exact generate_collision g dtMs r16 r64 (by rw [ht]; exact Nat.zero_le _)

/-- C10 witness at 100 ms before the epoch, from a fresh generator. -/
theorem claim_C10_pre_epoch_witness :
    (Ulid.from_datetime_with_source (-100) 7 8).timestamp_ms = 0
      ∧ Generator.new.generate_from_datetime_with_source (-100) 7 8
          = (match Generator.new.previous.increment with
             | some next => (.ok next, (⟨next⟩ : Generator))
             | none => (.error .Overflow, Generator.new)) :=
  claim_C10_pre_epoch Generator.new (-100) 7 8 (by norm_num)
